import Mathlib

set_option maxHeartbeats 1000000

/-!
Verification of the oasis-runtime gateway state-access core.

The development shallowly embeds the two source files of the gateway crate:

* `src/gateway/src/state.rs` — the raw column-emulating key/value layer
  (`StateDb` over an immutable `Snapshot`), embedded directly over byte
  strings modelled as `List Nat`;
* `src/gateway/src/client.rs` — the `Client` facade (BlockId comparison,
  block-hash resolution, log search with the parent-hash walk-back,
  listener notification, and local/remote dispatch), embedded over an
  interface view (`Store`) of the `StateDb` lookups that `Client` consumes.

External collaborators (the codec that decompresses stored headers, the
ethcore bloom/filter primitives, the transaction executor, the remote
runtime) are taken as parameters or modelled from the spec where noted.
-/

/-! ## Raw key/value layer (src/gateway/src/state.rs) -/

/-- Byte strings (Rust `&[u8]` / `Vec<u8>`) are modelled as lists of naturals;
real data has every element below 256. -/
abbrev ByteStr := List Nat

/-- An Ekiden database snapshot: an immutable byte-keyed map, returning `none`
for missing keys (`Snapshot::get`). -/
abbrev Snapshot := ByteStr → Option ByteStr

/-- `to_bytes` (state.rs): the four bytes of a `u32`, obtained in the source by
transmuting `num.to_le()`, i.e. the little-endian byte digits.  The source's
`u32` argument is modelled as a `Nat`; on arguments below `2^32` the digits
below are exactly the little-endian encoding. -/
def to_bytes (num : Nat) : ByteStr :=
  [num % 256, num / 256 % 256, num / 65536 % 256, num / 16777216 % 256]

/-- `get_key` (state.rs): emulate column namespacing by prepending the column
id bytes (or the reserved `[0,0,0,0]` when there is no column) to the key. -/
def get_key (col : Option Nat) (key : ByteStr) : ByteStr :=
  (match col with
   | some id => to_bytes id
   | none => [0, 0, 0, 0]) ++ key

/-- Little-endian value of a byte string (used to state that `to_bytes` is the
little-endian encoding). -/
def leVal (b : ByteStr) : Nat := b.foldr (fun d acc => d + 256 * acc) 0

/-- `ethcore::db::COL_HEADERS` (external ethcore constant): block headers column. -/
def COL_HEADERS : Option Nat := some 1

/-- `ethcore::db::COL_BODIES` (external ethcore constant): block bodies column. -/
def COL_BODIES : Option Nat := some 2

/-- `ethcore::db::COL_EXTRA` (external ethcore constant): extras column, which
holds the best-block key and the number-to-hash index. -/
def COL_EXTRA : Option Nat := some 3

/-- The bytes of the literal key `b"best"`. -/
def bestKeyBytes : ByteStr := [98, 101, 115, 116]

/-- `H256::from_slice` copies the 32 hash bytes; on the byte-string model it is
the identity. -/
def h256_from_slice (b : ByteStr) : ByteStr := b

/-- `StateDb` (state.rs): wraps one immutable snapshot. -/
structure StateDb where
  snapshot : Snapshot

/-- `<StateDb as KeyValueDB>::get` (state.rs): read the flat store at the
column-prefixed key; always returns `Ok`. -/
def StateDb.get (db : StateDb) (col : Option Nat) (key : ByteStr) :
    Except Unit (Option ByteStr) :=
  Except.ok (db.snapshot (get_key col key))

/-- `StateDb::best_block_hash` (state.rs): read the `b"best"` key of the extras
column; `Err` from the store maps to `None` (the store never errs here). -/
def StateDb.best_block_hash (db : StateDb) : Option ByteStr :=
  match db.get COL_EXTRA bestKeyBytes with
  | Except.ok best => best.map h256_from_slice
  | Except.error _ => none

/-- `StateDb::new` (state.rs): construction succeeds exactly when a best-block
hash is present. -/
def StateDb.new (s : Snapshot) : Option StateDb :=
  let db : StateDb := { snapshot := s }
  match db.best_block_hash with
  | some _ => some db
  | none => none

/-- `StateDb::block_header_data` (state.rs): look the compressed header record
up in the headers column and decode it.  Decompression and header decoding are
the external codec capability; `decodeNum` stands for the composition
`|h| Header::new(decompress(h)).number()`, the only observation the claims
need.  The `Error` branch models the source's `.unwrap()` panic and is
unreachable because `get` always returns `Ok`. -/
def StateDb.block_header_data (decodeNum : ByteStr → Nat) (db : StateDb)
    (h : ByteStr) : Option Nat :=
  match db.get COL_HEADERS h with
  | Except.ok v => v.map decodeNum
  | Except.error _ => none

/-- `StateDb::best_block_number` (state.rs): the number of the best header,
defaulting to `0` both when there is no best hash and when the best header
record is absent (`.unwrap_or(0)`). -/
def StateDb.best_block_number (decodeNum : ByteStr → Nat) (db : StateDb) : Nat :=
  match db.best_block_hash with
  | some hash =>
    match StateDb.block_header_data decodeNum db hash with
    | some n => n
    | none => 0
  | none => 0

/-! ### Claims C6, C7, C10 -/

/-- **C6** (confirmed): `StateDb::new(snapshot)` returns `none` exactly when the
snapshot has no `b"best"` key in the extras column; when that key is present,
construction succeeds and `best_block_hash()` returns the stored hash. -/
theorem claim_C6 (s : Snapshot) :
    (StateDb.new s = none ↔ s (get_key COL_EXTRA bestKeyBytes) = none) ∧
    (∀ v, s (get_key COL_EXTRA bestKeyBytes) = some v →
      ∃ db, StateDb.new s = some db ∧
        db.best_block_hash = some (h256_from_slice v) ∧ db.snapshot = s) := by
  constructor
  · unfold StateDb.new StateDb.best_block_hash StateDb.get
    cases h : s (get_key COL_EXTRA bestKeyBytes) <;> simp [h]
  · intro v hv
    refine ⟨{ snapshot := s }, ?_, ?_, rfl⟩
    · unfold StateDb.new StateDb.best_block_hash StateDb.get
      simp [hv]
    · unfold StateDb.best_block_hash StateDb.get
      simp [hv]

/-- **C6 witness**: construction succeeds on a snapshot holding a best hash. -/
theorem claim_C6_witness :
    ∃ db, StateDb.new (fun k => if k = get_key COL_EXTRA bestKeyBytes then some [7] else none)
        = some db ∧
      db.best_block_hash = some (h256_from_slice [7]) ∧
      db.snapshot = (fun k => if k = get_key COL_EXTRA bestKeyBytes then some [7] else none) :=
  (claim_C6 (fun k => if k = get_key COL_EXTRA bestKeyBytes then some [7] else none)).2
    [7] (by simp)

/-- **C7** (confirmed): `get(column, key)` reads the flat store at the key built
by prepending the fixed-width (4-byte) little-endian encoding of the column id,
a missing column id uses the reserved all-zero 4-byte prefix, lookups in
distinct columns never alias, and distinct keys within one column never alias. -/
theorem claim_C7 :
    (∀ id key, get_key (some id) key = to_bytes id ++ key) ∧
    (∀ key, get_key none key = [0, 0, 0, 0] ++ key) ∧
    (∀ id, (to_bytes id).length = 4 ∧ ∀ b ∈ to_bytes id, b < 256) ∧
    (∀ id, id < 4294967296 → leVal (to_bytes id) = id) ∧
    (∀ db col key, StateDb.get db col key = Except.ok (db.snapshot (get_key col key))) ∧
    (∀ a b k1 k2, a < 4294967296 → b < 4294967296 →
      get_key (some a) k1 = get_key (some b) k2 → a = b ∧ k1 = k2) ∧
    (∀ col k1 k2, get_key col k1 = get_key col k2 → k1 = k2) := by
  refine ⟨fun id key => rfl, fun key => rfl, ?_, ?_, fun db col key => rfl, ?_, ?_⟩
  · intro id
    refine ⟨rfl, ?_⟩
    intro b hb
    simp only [to_bytes, List.mem_cons, List.not_mem_nil, or_false] at hb
    rcases hb with h | h | h | h <;> subst h <;> omega
  · intro id hid
    simp only [leVal, to_bytes, List.foldr]
    omega
  · intro a b k1 k2 ha hb h
    have hlen : (to_bytes a).length = (to_bytes b).length := rfl
    have h2 := List.append_inj h hlen
    rcases h2 with ⟨hpre, hkey⟩
    simp only [to_bytes, List.cons.injEq, and_true] at hpre
    exact ⟨by omega, hkey⟩
  · intro col k1 k2 h
    unfold get_key at h
    rcases col with _ | id
    · simpa using h
    · have hlen : (to_bytes id).length = (to_bytes id).length := rfl
      exact (List.append_inj h hlen).2

/-- **C7 witness**: distinct columns at concrete ids and keys do not alias. -/
theorem claim_C7_witness :
    (1 : Nat) < 4294967296 ∧ (2 : Nat) < 4294967296 ∧
    ((5 : Nat) < 4294967296 → leVal (to_bytes 5) = 5) ∧
    (get_key (some 1) [9] = get_key (some 2) [9] → 1 = 2 ∧ [9] = ([9] : ByteStr)) :=
  ⟨by decide, by decide, fun h => claim_C7.2.2.2.1 5 h,
   fun h => claim_C7.2.2.2.2.2.1 1 2 [9] [9] (by decide) (by decide) h⟩

/-- **C10** (confirmed): `best_block_number()` is total over the raw store, and
when the best-block hash is recorded but the corresponding header record is
absent it returns `0` — the same answer a consistent store whose best header
decodes to height `0` gives — rather than producing an error. -/
theorem claim_C10 (decodeNum : ByteStr → Nat) (db : StateDb) (hb : ByteStr)
    (h1 : db.snapshot (get_key COL_EXTRA bestKeyBytes) = some hb)
    (h2 : db.snapshot (get_key COL_HEADERS (h256_from_slice hb)) = none) :
    StateDb.best_block_number decodeNum db = 0 ∧
    (∀ (db2 : StateDb) (hb2 v2 : ByteStr),
      db2.snapshot (get_key COL_EXTRA bestKeyBytes) = some hb2 →
      db2.snapshot (get_key COL_HEADERS (h256_from_slice hb2)) = some v2 →
      decodeNum v2 = 0 →
      StateDb.best_block_number decodeNum db2 = 0) := by
  constructor
  · unfold StateDb.best_block_number StateDb.best_block_hash StateDb.block_header_data
      StateDb.get
    simp only [h256_from_slice] at h2
    simp [h1, h256_from_slice, h2]
  · intro db2 hb2 v2 g1 g2 g3
    unfold StateDb.best_block_number StateDb.best_block_hash StateDb.block_header_data
      StateDb.get
    simp only [h256_from_slice] at g2
    simp [g1, h256_from_slice, g2, g3]

/-- **C10 witness**: a store with a best hash but no header for it reports
height `0`, exactly like a consistent height-`0` store. -/
theorem claim_C10_witness :
    ((fun k => if k = get_key COL_EXTRA bestKeyBytes then some [9] else none) :
        Snapshot) (get_key COL_EXTRA bestKeyBytes) = some [9] ∧
    ((fun k => if k = get_key COL_EXTRA bestKeyBytes then some [9] else none) :
        Snapshot) (get_key COL_HEADERS (h256_from_slice [9])) = none ∧
    StateDb.best_block_number leVal
      { snapshot := fun k => if k = get_key COL_EXTRA bestKeyBytes then some [9] else none }
      = 0 := by
  refine ⟨by decide, by decide, ?_⟩
  exact (claim_C10 leVal
    { snapshot := fun k => if k = get_key COL_EXTRA bestKeyBytes then some [9] else none }
    [9] (by decide) (by decide)).1

/-! ## Client-facing interface layer (src/gateway/src/client.rs)

`Client` consumes `StateDb` through a handful of lookups (header by hash,
number-to-hash index, hash-to-number index, best hash, per-block receipts'
logs, historical account state).  The `Store` structure is that interface
view; each field models one `StateDb` lookup result. -/

/-- `BlockId` (ethcore): address of a block.  Hashes are opaque and modelled
as naturals. -/
inductive BlockId where
  | latest
  | earliest
  | number (n : Nat)
  | hash (h : Nat)
deriving DecidableEq, Repr

/-- A decoded block header, with the fields the gateway reads: the block
number, the parent hash and the log bloom (modelled as its set of bits). -/
structure Header where
  number : Nat
  parentHash : Nat
  logBloom : List Nat
deriving DecidableEq, Repr

/-- A localized log entry; `payload` stands for the raw entry data the
gateway never inspects. -/
structure LogEntry where
  blockHash : Nat
  blockNumber : Nat
  payload : Nat
deriving DecidableEq, Repr

/-- Interface view of the `StateDb` lookups consumed by `Client`
(block numbers are `u64` in the source, modelled as `Nat`; no arithmetic in
these lookups can overflow). -/
structure Store where
  /-- `block_header_data(hash)`: decoded header by block hash. -/
  headers : Nat → Option Header
  /-- `block_hash(number)`: the number-to-hash extras index. -/
  blockHashAt : Nat → Option Nat
  /-- `block_number(hash)`: the hash-to-number extras index. -/
  blockNumber : Nat → Option Nat
  /-- `best_block_hash()`. -/
  bestHash : Option Nat
  /-- The localized log entries of the block with the given hash (read by the
  ethcore `BlockProvider::logs` collaborator from the block's receipts). -/
  blockLogs : Nat → List LogEntry
  /-- `get_ethstate_at(id)`: historical account state at a `BlockId`, as an
  abstract handle (`none` when the state root cannot be resolved). -/
  ethstateAt : BlockId → Option Nat
  /-- `block(hash)`: header plus body, as an abstract handle. -/
  blockAt : Nat → Option Nat

/-- `StateDb::best_block_number` as observed through the interface view: the
number of the best header, defaulting to `0` when either lookup misses. -/
def Store.best_block_number (db : Store) : Nat :=
  match db.bestHash with
  | some h =>
    match db.headers h with
    | some hdr => hdr.number
    | none => 0
  | none => 0

/-- `Client::block_number` (client.rs): resolve a block hash to its number
through the snapshot, `none` when no snapshot is obtainable. -/
def client_block_number (db? : Option Store) (h : Nat) : Option Nat :=
  match db? with
  | some db => db.blockNumber h
  | none => none

/-- The `to_block_number` closure of `Client::max_block_number` /
`Client::min_block_number` (client.rs): numbers map to themselves, hashes
resolve through the store and default to height `0` when unresolvable.  The
`Latest`/`Earliest` arms are `unreachable!()` in the source (both callers
guard them away); they are mapped to `0`, which no caller observes. -/
def to_block_number (db? : Option Store) : BlockId → Nat
  | BlockId.latest => 0
  | BlockId.earliest => 0
  | BlockId.number n => n
  | BlockId.hash h =>
    match client_block_number db? h with
    | some n => n
    | none => 0

/-- `Client::max_block_number` (client.rs). -/
def max_block_number (db? : Option Store) (id_a id_b : BlockId) : BlockId :=
  if id_a = BlockId.latest ∨ id_b = BlockId.latest then BlockId.latest
  else if id_a = BlockId.earliest then id_b
  else if id_b = BlockId.earliest then id_a
  else if to_block_number db? id_a > to_block_number db? id_b then id_a else id_b

/-- `Client::min_block_number` (client.rs). -/
def min_block_number (db? : Option Store) (id_a id_b : BlockId) : BlockId :=
  if id_a = BlockId.earliest ∨ id_b = BlockId.earliest then BlockId.earliest
  else if id_a = BlockId.latest then id_b
  else if id_b = BlockId.latest then id_a
  else if to_block_number db? id_a < to_block_number db? id_b then id_a else id_b

/-- The resolvable `BlockId` variants: those the comparison closures map to a
concrete height. -/
def BlockId.isResolvable : BlockId → Bool
  | BlockId.number _ => true
  | BlockId.hash _ => true
  | _ => false

/-- `Client::block_hash` (client.rs, read_state build): a `Hash` id is returned
as-is without consulting the store; the other variants are resolved through
the snapshot, with `none` when no snapshot is obtainable.  The inner `Hash`
arm is `unreachable!()` in the source. -/
def client_block_hash (db? : Option Store) (id : BlockId) : Option Nat :=
  match id with
  | BlockId.hash h => some h
  | _ =>
    match db? with
    | some db =>
      match id with
      | BlockId.hash _ => none
      | BlockId.number n => db.blockHashAt n
      | BlockId.earliest => db.blockHashAt 0
      | BlockId.latest => db.bestHash
    | none => none

/-! ### Claims C9 and C1 -/

/-- **C9** (confirmed): `block_hash(Hash(h))` returns `Some(h)` unconditionally,
with no store consultation and even with no snapshot, so it cannot test block
existence; only `Latest`, `Earliest` and `Number` are resolved against the
store (and are `none` without a snapshot). -/
theorem claim_C9 :
    (∀ (db? : Option Store) (h : Nat),
        client_block_hash db? (BlockId.hash h) = some h) ∧
    (∀ (db : Store) (n : Nat),
        client_block_hash (some db) (BlockId.number n) = db.blockHashAt n) ∧
    (∀ db : Store, client_block_hash (some db) BlockId.earliest = db.blockHashAt 0) ∧
    (∀ db : Store, client_block_hash (some db) BlockId.latest = db.bestHash) ∧
    (∀ n, client_block_hash none (BlockId.number n) = none) ∧
    client_block_hash none BlockId.earliest = none ∧
    client_block_hash none BlockId.latest = none :=
  ⟨fun _ _ => rfl, fun _ _ => rfl, fun _ => rfl, fun _ => rfl, fun _ => rfl, rfl, rfl⟩

/-- **C1 counterexample**: with no snapshot, `a = Number(0)` and `b = Hash(7)`
both resolve to height `0` (the unresolvable hash defaults to `0`), and both
`max_block_number` and `min_block_number` return `b`, so the pair
`{max(a,b), min(a,b)}` is `{b}` and does not equal `{a, b}`. -/
theorem claim_C1_counterexample :
    ¬ ((max_block_number none (BlockId.number 0) (BlockId.hash 7) = BlockId.number 0 ∧
        min_block_number none (BlockId.number 0) (BlockId.hash 7) = BlockId.hash 7) ∨
       (max_block_number none (BlockId.number 0) (BlockId.hash 7) = BlockId.hash 7 ∧
        min_block_number none (BlockId.number 0) (BlockId.hash 7) = BlockId.number 0)) := by
  decide

/-- Both comparison results land in the resolvable fragment whenever both
arguments do, with `max`/`min` picking by resolved height. -/
theorem maxmin_resolvable (db? : Option Store) (a b : BlockId)
    (ha : a.isResolvable = true) (hb : b.isResolvable = true) :
    max_block_number db? a b
        = (if to_block_number db? b < to_block_number db? a then a else b) ∧
    min_block_number db? a b
        = (if to_block_number db? a < to_block_number db? b then a else b) := by
  cases a <;> cases b <;> simp_all [BlockId.isResolvable, max_block_number,
    min_block_number, gt_iff_lt]

/-- **C1** (amended): `Latest` dominates `max` and `Earliest` dominates `min`;
a `Hash` resolves to its stored height, defaulting to `0` when unresolved;
whenever both arguments resolve, the height of `max(a,b)` is at least the
height of `min(a,b)`; and the pair `{max(a,b), min(a,b)}` equals the pair
`{a, b}` EXCEPT when `a ≠ b` are both resolvable with equal resolved heights,
in which case both `max` and `min` return `b`. -/
theorem claim_C1 (db? : Option Store) (a b : BlockId) :
    ((max_block_number db? a b = BlockId.latest) ↔
        (a = BlockId.latest ∨ b = BlockId.latest)) ∧
    ((min_block_number db? a b = BlockId.earliest) ↔
        (a = BlockId.earliest ∨ b = BlockId.earliest)) ∧
    (∀ h, to_block_number db? (BlockId.hash h)
        = (client_block_number db? h).getD 0) ∧
    (a.isResolvable = true → b.isResolvable = true →
      to_block_number db? (min_block_number db? a b)
        ≤ to_block_number db? (max_block_number db? a b)) ∧
    ((max_block_number db? a b = a ∧ min_block_number db? a b = b) ∨
     (max_block_number db? a b = b ∧ min_block_number db? a b = a) ∨
     (a ≠ b ∧ a.isResolvable = true ∧ b.isResolvable = true ∧
      to_block_number db? a = to_block_number db? b ∧
      max_block_number db? a b = b ∧ min_block_number db? a b = b)) := by
  refine ⟨?_, ?_, ?_, ?_, ?_⟩
  · cases a <;> cases b <;> simp [max_block_number] <;> split_ifs <;> simp_all
  · cases a <;> cases b <;> simp [min_block_number] <;> split_ifs <;> simp_all
  · intro h
    cases db? with
    | none => rfl
    | some db => cases hdb : db.blockNumber h <;>
        simp [to_block_number, client_block_number, hdb]
  · intro ha hb
    obtain ⟨hmax, hmin⟩ := maxmin_resolvable db? a b ha hb
    rw [hmax, hmin]
    split_ifs <;> omega
  · by_cases ha : a.isResolvable = true
    · by_cases hb : b.isResolvable = true
      · obtain ⟨hmax, hmin⟩ := maxmin_resolvable db? a b ha hb
        rcases Nat.lt_trichotomy (to_block_number db? a) (to_block_number db? b)
          with hlt | heq | hgt
        · -- a strictly below b: max = b, min = a
          right; left
          refine ⟨?_, ?_⟩
          · rw [hmax]; split_ifs <;> first | rfl | omega
          · rw [hmin]; split_ifs <;> first | rfl | omega
        · by_cases hab : a = b
          · subst hab
            right; left
            refine ⟨?_, ?_⟩
            · rw [hmax]; split_ifs <;> rfl
            · rw [hmin]; split_ifs <;> rfl
          · right; right
            refine ⟨hab, ha, hb, heq, ?_, ?_⟩
            · rw [hmax]; split_ifs <;> first | rfl | omega
            · rw [hmin]; split_ifs <;> first | rfl | omega
        · -- a strictly above b: max = a, min = b
          left
          refine ⟨?_, ?_⟩
          · rw [hmax]; split_ifs <;> first | rfl | omega
          · rw [hmin]; split_ifs <;> first | rfl | omega
      · -- b is Latest or Earliest
        cases b with
        | latest =>
          right; left
          cases a <;> simp [max_block_number, min_block_number]
        | earliest =>
          left
          cases a <;> simp_all [max_block_number, min_block_number,
            BlockId.isResolvable]
        | number n => simp [BlockId.isResolvable] at hb
        | hash h => simp [BlockId.isResolvable] at hb
    · -- a is Latest or Earliest
      cases a with
      | latest =>
        left
        cases b <;> simp [max_block_number, min_block_number]
      | earliest =>
        right; left
        cases b <;> simp [max_block_number, min_block_number]
      | number n => simp [BlockId.isResolvable] at ha
      | hash h => simp [BlockId.isResolvable] at ha

/-- **C1 witness**: the amended statement at a concrete input. -/
theorem claim_C1_witness :
    ((max_block_number none (BlockId.number 1) (BlockId.number 2) = BlockId.latest) ↔
        (BlockId.number 1 = BlockId.latest ∨ BlockId.number 2 = BlockId.latest)) ∧
    ((min_block_number none (BlockId.number 1) (BlockId.number 2) = BlockId.earliest) ↔
        (BlockId.number 1 = BlockId.earliest ∨ BlockId.number 2 = BlockId.earliest)) ∧
    (∀ h, to_block_number none (BlockId.hash h)
        = (client_block_number none h).getD 0) ∧
    ((BlockId.number 1).isResolvable = true → (BlockId.number 2).isResolvable = true →
      to_block_number none (min_block_number none (BlockId.number 1) (BlockId.number 2))
        ≤ to_block_number none (max_block_number none (BlockId.number 1) (BlockId.number 2))) ∧
    ((max_block_number none (BlockId.number 1) (BlockId.number 2) = BlockId.number 1 ∧
      min_block_number none (BlockId.number 1) (BlockId.number 2) = BlockId.number 2) ∨
     (max_block_number none (BlockId.number 1) (BlockId.number 2) = BlockId.number 2 ∧
      min_block_number none (BlockId.number 1) (BlockId.number 2) = BlockId.number 1) ∨
     (BlockId.number 1 ≠ BlockId.number 2 ∧
      (BlockId.number 1).isResolvable = true ∧ (BlockId.number 2).isResolvable = true ∧
      to_block_number none (BlockId.number 1) = to_block_number none (BlockId.number 2) ∧
      max_block_number none (BlockId.number 1) (BlockId.number 2) = BlockId.number 2 ∧
      min_block_number none (BlockId.number 1) (BlockId.number 2) = BlockId.number 2)) :=
  claim_C1 none (BlockId.number 1) (BlockId.number 2)

/-! ## Account state access and transaction simulation (client.rs) -/

/-- `Client::get_ethstate_snapshot_at` (client.rs): the historical account
state at a `BlockId`, `none` when no snapshot is obtainable or the state
cannot be resolved from it. -/
def get_ethstate_snapshot_at (db? : Option Store) (id : BlockId) : Option Nat :=
  match db? with
  | some db => db.ethstateAt id
  | none => none

/-- The error type of `Client::call` / `Client::estimate_gas`
(ethcore `CallError`); only the `StateCorrupt` variant is produced by the
gateway itself, the rest come from the external transaction executor. -/
inductive CallErr where
  | stateCorrupt
  | execution (code : Nat)
deriving DecidableEq, Repr

/-- The observation of `Executed` that `estimate_gas` uses: gas used and gas
refunded. -/
structure ExecOutcome where
  gas_used : Nat
  refunded : Nat
deriving DecidableEq, Repr

/-- `Client::call` (client.rs, read_state build): without a snapshot, or when
the historical state at `id` cannot be resolved, return
`CallError::StateCorrupt`; otherwise run the external transaction executor
(`EnvInfo` construction plus `Executive::transact_virtual`, taken here as the
parameter `runExec` applied to the store and the resolved state handle). -/
def client_call (db? : Option Store) (id : BlockId)
    (runExec : Store → Nat → Except CallErr ExecOutcome) :
    Except CallErr ExecOutcome :=
  match db? with
  | none => Except.error CallErr.stateCorrupt
  | some db =>
    match db.ethstateAt id with
    | none => Except.error CallErr.stateCorrupt
    | some st => runExec db st

/-- `Client::estimate_gas` (client.rs, read_state build): same dispatch as
`call`, returning `gas_used + refunded` of the executor's outcome. -/
def client_estimate_gas (db? : Option Store) (id : BlockId)
    (runExec : Store → Nat → Except CallErr ExecOutcome) :
    Except CallErr Nat :=
  match db? with
  | none => Except.error CallErr.stateCorrupt
  | some db =>
    match db.ethstateAt id with
    | none => Except.error CallErr.stateCorrupt
    | some st => (runExec db st).map fun r => r.gas_used + r.refunded

/-- `Client::balance` (client.rs): serve from the historical state when it is
resolvable (a store-level error from the trie capability `readState` maps to
`none`), otherwise fall back to the remote `get_account_balance` call, whose
result is the parameter `remote`. -/
def client_balance (db? : Option Store) (id : BlockId)
    (readState : Nat → Except Unit Nat) (remote : Option Nat) : Option Nat :=
  match get_ethstate_snapshot_at db? id with
  | some st =>
    match readState st with
    | Except.ok v => some v
    | Except.error _ => none
  | none => remote

/-- `Client::code` (client.rs): same dispatch shape as `balance`. -/
def client_code (db? : Option Store) (id : BlockId)
    (readState : Nat → Except Unit (Option ByteStr)) (remote : Option (Option ByteStr)) :
    Option (Option ByteStr) :=
  match get_ethstate_snapshot_at db? id with
  | some st =>
    match readState st with
    | Except.ok v => some v
    | Except.error _ => none
  | none => remote

/-- `Client::nonce` (client.rs): same dispatch shape as `balance`. -/
def client_nonce (db? : Option Store) (id : BlockId)
    (readState : Nat → Except Unit Nat) (remote : Option Nat) : Option Nat :=
  match get_ethstate_snapshot_at db? id with
  | some st =>
    match readState st with
    | Except.ok v => some v
    | Except.error _ => none
  | none => remote

/-- `Client::storage_at` (client.rs): same dispatch shape as `balance`. -/
def client_storage_at (db? : Option Store) (id : BlockId)
    (readState : Nat → Except Unit Nat) (remote : Option Nat) : Option Nat :=
  match get_ethstate_snapshot_at db? id with
  | some st =>
    match readState st with
    | Except.ok v => some v
    | Except.error _ => none
  | none => remote

/-- `Client::block` (client.rs): with a snapshot, resolve the id to a hash and
read the block; otherwise fall back to the remote `get_block` call. -/
def client_block (db? : Option Store) (id : BlockId) (remote : Option Nat) :
    Option Nat :=
  match db? with
  | some db => (client_block_hash (some db) id).bind fun h => db.blockAt h
  | none => remote

/-- `Client::best_block_number` (client.rs): with a snapshot, the store's best
block number; otherwise the remote `get_block_height` call. -/
def client_best_block_number (db? : Option Store) (remote : Nat) : Nat :=
  match db? with
  | some db => db.best_block_number
  | none => remote

/-! ### Claim C8 -/

/-- **C8** (confirmed): with no snapshot, or with a snapshot from which the
requested historical state cannot be resolved, `call` and `estimate_gas`
return `CallError::StateCorrupt` (never a remote fallback), while the read
operations `balance`, `code`, `nonce`, `storage_at`, `block` and
`best_block_number` take the remote path instead of erroring. -/
theorem claim_C8 (db : Store) (id : BlockId)
    (runExec : Store → Nat → Except CallErr ExecOutcome)
    (readNat : Nat → Except Unit Nat)
    (readCode : Nat → Except Unit (Option ByteStr))
    (remoteNat : Option Nat) (remoteCode : Option (Option ByteStr))
    (remoteBlock : Option Nat) (remoteHeight : Nat)
    (hst : db.ethstateAt id = none) :
    client_call none id runExec = Except.error CallErr.stateCorrupt ∧
    client_call (some db) id runExec = Except.error CallErr.stateCorrupt ∧
    client_estimate_gas none id runExec = Except.error CallErr.stateCorrupt ∧
    client_estimate_gas (some db) id runExec = Except.error CallErr.stateCorrupt ∧
    client_balance none id readNat remoteNat = remoteNat ∧
    client_balance (some db) id readNat remoteNat = remoteNat ∧
    client_code none id readCode remoteCode = remoteCode ∧
    client_code (some db) id readCode remoteCode = remoteCode ∧
    client_nonce none id readNat remoteNat = remoteNat ∧
    client_nonce (some db) id readNat remoteNat = remoteNat ∧
    client_storage_at none id readNat remoteNat = remoteNat ∧
    client_storage_at (some db) id readNat remoteNat = remoteNat ∧
    client_block none id remoteBlock = remoteBlock ∧
    client_best_block_number none remoteHeight = remoteHeight := by
  refine ⟨rfl, ?_, rfl, ?_, rfl, ?_, rfl, ?_, rfl, ?_, rfl, ?_, rfl, rfl⟩ <;>
    simp [client_call, client_estimate_gas, client_balance, client_code,
      client_nonce, client_storage_at, get_ethstate_snapshot_at, hst]

/-- A minimal concrete store with no resolvable state, used as a witness
input. -/
def emptyStore : Store where
  headers := fun _ => none
  blockHashAt := fun _ => none
  blockNumber := fun _ => none
  bestHash := none
  blockLogs := fun _ => []
  ethstateAt := fun _ => none
  blockAt := fun _ => none

/-- **C8 witness**: the dispatch rules at a concrete store whose historical
state at `Latest` is unresolvable. -/
theorem claim_C8_witness :
    (emptyStore.ethstateAt BlockId.latest = none) ∧
    (client_call (some emptyStore) BlockId.latest
        (fun _ st => Except.ok ⟨st, 0⟩) = Except.error CallErr.stateCorrupt) ∧
    (client_balance none BlockId.latest (fun st => Except.ok st) (some 5) = some 5) :=
  ⟨rfl,
   (claim_C8 emptyStore BlockId.latest
     (fun _ st => Except.ok ⟨st, 0⟩) (fun st => Except.ok st)
     (fun _ => Except.ok none) (some 5) none none 0 rfl).2.1,
   (claim_C8 emptyStore BlockId.latest
     (fun _ st => Except.ok ⟨st, 0⟩) (fun st => Except.ok st)
     (fun _ => Except.ok none) (some 5) none none 0 rfl).2.2.2.2.1⟩

/-! ## Header chain walks (client.rs)

`Client::headers_since` computes its `start` adjustment in `u64` arithmetic;
`end - max + 1` wraps when `max = end + 1` (and the guard `end - start + 1`
wraps when the range is the full `u64` domain), so the adjustment is embedded
with explicit wrapping. -/

/-- `2^64`, the modulus of Rust `u64` arithmetic. -/
def U64 : Nat := 18446744073709551616

/-- Wrapping `u64` subtraction `a - b` (release-build semantics of the
source's `-`). -/
def wsub (a b : Nat) : Nat := (a + (U64 - b % U64)) % U64

/-- The `start` adjustment of `Client::headers_since` (client.rs): limit the
range to the `max` most recent headers
(`if end - start + 1 >= max { end - max + 1 } else { start }`, in `u64`). -/
def adjStart (start endB mx : Nat) : Nat :=
  if mx ≤ (wsub endB start + 1) % U64 then (wsub endB mx + 1) % U64 else start

/-- On `u64`-ranged, non-degenerate inputs the wrapping adjustment is the
plain arithmetic one. -/
theorem adjStart_eq (start endB mx : Nat) (h1 : start ≤ endB) (h2 : 1 ≤ mx)
    (hE1 : endB < U64) (hE2 : endB - start + 1 < U64) (hM : mx < U64) :
    adjStart start endB mx = if mx ≤ endB - start + 1 then endB + 1 - mx else start := by
  unfold adjStart wsub
  unfold U64 at hE1 hE2 hM ⊢
  split_ifs <;> omega

/-- The loop of `Client::headers_since` (client.rs): push the current header,
stop once its number is at or below `start`, otherwise step to the parent
header; a missing parent is the source's `.expect("Chain is corrupt")` panic,
modelled as `none`.  The source loop has no termination guarantee on a
corrupt store, so the model takes explicit fuel; `none` on fuel exhaustion
models divergence, which the theorems' fuel hypotheses rule out. -/
def headersWalk (db : Store) (start : Nat) : Nat → Header → Option (List Header)
  | 0, _ => none
  | fuel + 1, head =>
    if head.number ≤ start then some [head]
    else
      match db.headers head.parentHash with
      | none => none
      | some h2 => (headersWalk db start fuel h2).map fun l => head :: l

/-- `Client::headers_since` (client.rs): the headers of blocks
`start ... end` (inclusive), limited to the `max` most recent, in ascending
order; `none` models the source's `"Chain is corrupt"` panics. -/
def headers_since (db : Store) (start endB mx fuel : Nat) : Option (List Header) :=
  match db.blockHashAt endB with
  | none => none
  | some h =>
    match db.headers h with
    | none => none
    | some head => (headersWalk db (adjStart start endB mx) fuel head).map List.reverse

/-- Decidable check that the store holds a coherent chain over block numbers
`s ... e`: block `n` has stored hash `hsh n`, its header is stored with
number `n`, and above `s` its parent hash is `hsh (n-1)`. -/
def storedChain (db : Store) (hsh : Nat → Nat) (s e : Nat) : Bool :=
  (List.range' s (e + 1 - s)).all fun n =>
    (db.blockHashAt n == some (hsh n)) &&
    (match db.headers (hsh n) with
     | none => false
     | some hdr => (hdr.number == n) && (decide (n ≤ s) || (hdr.parentHash == hsh (n - 1))))

/-- Propositional form of `storedChain`. -/
def StoredChainP (db : Store) (hsh : Nat → Nat) (s e : Nat) : Prop :=
  ∀ n, s ≤ n → n ≤ e →
    db.blockHashAt n = some (hsh n) ∧
    ∃ hdr, db.headers (hsh n) = some hdr ∧ hdr.number = n ∧
      (s < n → hdr.parentHash = hsh (n - 1))

theorem storedChain_p (db : Store) (hsh : Nat → Nat) (s e : Nat)
    (h : storedChain db hsh s e = true) : StoredChainP db hsh s e := by
  intro n h1 h2
  have hm : n ∈ List.range' s (e + 1 - s) := by
    rw [List.mem_range'_1]
    omega
  have hn := (List.all_eq_true.mp h) n hm
  rw [Bool.and_eq_true, beq_iff_eq] at hn
  obtain ⟨hbh, hrest⟩ := hn
  refine ⟨hbh, ?_⟩
  cases hh : db.headers (hsh n) with
  | none => rw [hh] at hrest; exact absurd hrest (by simp)
  | some hdr =>
    rw [hh] at hrest
    rw [Bool.and_eq_true, beq_iff_eq, Bool.or_eq_true, beq_iff_eq,
      decide_eq_true_iff] at hrest
    obtain ⟨hnum, hpar⟩ := hrest
    exact ⟨hdr, rfl, hnum, fun hs => hpar.resolve_left (by omega)⟩

/-- `range'` with the last element split off. -/
theorem range'_concat_one (s k : Nat) :
    List.range' s (k + 1) = List.range' s k ++ [s + k] := by
  induction k generalizing s with
  | zero => rfl
  | succ k ih =>
    have hr1 : List.range' s (k + 1 + 1) = s :: List.range' (s + 1) (k + 1) :=
      List.range'_succ s (k + 1) 1
    have hr2 : List.range' s (k + 1) = s :: List.range' (s + 1) k :=
      List.range'_succ s k 1
    rw [hr1, ih (s + 1), hr2]
    simp only [List.cons_append]
    have : s + 1 + k = s + (k + 1) := by omega
    rw [this]

theorem range'_rev_succ (s k : Nat) :
    (List.range' s (k + 1)).reverse = (s + k) :: (List.range' s k).reverse := by
  rw [range'_concat_one, List.reverse_append]
  rfl

theorem range'_getLast?_eq (s k : Nat) :
    (List.range' s (k + 1)).getLast? = some (s + k) := by
  rw [range'_concat_one]
  exact List.getLast?_concat _

theorem range'_head?_eq (s k : Nat) :
    (List.range' s (k + 1)).head? = some s := by
  rw [List.range'_succ s k 1]
  rfl

/-- Walk correctness over a coherently stored chain: starting from the stored
header of block `n`, the walk returns the headers of blocks `n` down to `s`. -/
theorem headersWalk_spec (db : Store) (hsh : Nat → Nat) (s e : Nat)
    (hP : StoredChainP db hsh s e) :
    ∀ fuel n hdr, s ≤ n → n ≤ e → db.headers (hsh n) = some hdr →
      hdr.number = n → n - s < fuel →
      ∃ l, headersWalk db s fuel hdr = some l ∧
        l.map Header.number = (List.range' s (n - s + 1)).reverse := by
  intro fuel
  induction fuel with
  | zero => intro n hdr _ _ _ _ h5; omega
  | succ f ih =>
    intro n hdr h1 h2 h3 h4 h5
    by_cases hns : n ≤ s
    · have hne : n = s := by omega
      refine ⟨[hdr], ?_, ?_⟩
      · unfold headersWalk
        rw [if_pos (by omega)]
      · simp only [List.map_cons, List.map_nil, h4, hne]
        have : s - s + 1 = 0 + 1 := by omega
        rw [this, range'_rev_succ]
        rfl
    · have hlt : s < n := by omega
      obtain ⟨_, hdr0, hh0, hn0, hp0⟩ := hP n h1 h2
      have heq : hdr = hdr0 := by
        rw [h3] at hh0
        exact Option.some.inj hh0
      have hpar : hdr.parentHash = hsh (n - 1) := by
        rw [heq]
        exact hp0 hlt
      obtain ⟨_, hdr1, hh1, hn1, _⟩ := hP (n - 1) (by omega) (by omega)
      obtain ⟨l1, hw1, hm1⟩ := ih (n - 1) hdr1 (by omega) (by omega) hh1 hn1 (by omega)
      refine ⟨hdr :: l1, ?_, ?_⟩
      · unfold headersWalk
        rw [if_neg (by omega), hpar]
        simp [hh1, hw1]
      · simp only [List.map_cons, hm1, h4]
        have hk : n - s + 1 = (n - 1 - s + 1) + 1 := by omega
        rw [hk]
        rw [range'_rev_succ s (n - 1 - s + 1)]
        have hsn : s + (n - 1 - s + 1) = n := by omega
        rw [hsn]

/-- `headers_since` correctness over a coherently stored chain: it returns
the headers of blocks `adjStart ... end`, in ascending order. -/
theorem headers_since_spec (db : Store) (hsh : Nat → Nat)
    (start endB mx fuel : Nat)
    (hsle : adjStart start endB mx ≤ endB)
    (hchain : StoredChainP db hsh (adjStart start endB mx) endB)
    (hfuel : endB - adjStart start endB mx < fuel) :
    ∃ l, headers_since db start endB mx fuel = some l ∧
      l.map Header.number
        = List.range' (adjStart start endB mx) (endB - adjStart start endB mx + 1) := by
  obtain ⟨hbh, hdrE, hhE, hnE, _⟩ := hchain endB hsle le_rfl
  obtain ⟨l, hw, hmap⟩ := headersWalk_spec db hsh (adjStart start endB mx) endB hchain
    fuel endB hdrE hsle le_rfl hhE hnE hfuel
  refine ⟨l.reverse, ?_, ?_⟩
  · unfold headers_since
    simp [hbh, hhE, hw]
  · rw [List.map_reverse, hmap, List.reverse_reverse]

/-! ### Claim C4 -/

/-- **C4** (confirmed): for `start ≤ end`, `max ≥ 1` (u64 values, range not
degenerate), when blocks `start ... end` are coherently stored,
`headers_since(start, end, max)` succeeds with headers in strictly ascending
block-number order, of length at most `max`, whose last element has number
`end` and whose first element has number `max(start, end - max + 1)` (integer
arithmetic). -/
theorem claim_C4 (db : Store) (hsh : Nat → Nat) (start endB mx fuel : Nat)
    (h1 : start ≤ endB) (h2 : 1 ≤ mx)
    (hE1 : endB < U64) (hE2 : endB - start + 1 < U64) (hM : mx < U64)
    (hchain : storedChain db hsh (adjStart start endB mx) endB = true)
    (hfuel : endB < fuel) :
    ∃ l, headers_since db start endB mx fuel = some l ∧
      List.Pairwise (· < ·) (l.map Header.number) ∧
      l.length ≤ mx ∧
      (l.map Header.number).getLast? = some endB ∧
      ∃ hfst, (l.map Header.number).head? = some hfst ∧
        (hfst : Int) = max (start : Int) ((endB : Int) - (mx : Int) + 1) := by
  have hadj := adjStart_eq start endB mx h1 h2 hE1 hE2 hM
  have hsle : adjStart start endB mx ≤ endB := by
    rw [hadj]; split <;> omega
  obtain ⟨l, hls, hmap⟩ := headers_since_spec db hsh start endB mx fuel hsle
    (storedChain_p _ _ _ _ hchain) (by omega)
  have hlen : l.length = endB - adjStart start endB mx + 1 := by
    have hc := congrArg List.length hmap
    simpa using hc
  refine ⟨l, hls, ?_, ?_, ?_, ?_⟩
  · rw [hmap]
    exact List.pairwise_lt_range' _ _
  · rw [hlen, hadj]
    split <;> omega
  · rw [hmap, range'_getLast?_eq]
    congr 1
    omega
  · refine ⟨adjStart start endB mx, ?_, ?_⟩
    · rw [hmap, range'_head?_eq]
    rcases le_total (start : Int) ((endB : Int) - (mx : Int) + 1) with hmx | hmx
    · rw [max_eq_right hmx]
      rw [hadj]
      split
      · omega
      · omega
    · rw [max_eq_left hmx]
      rw [hadj]
      split
      · omega
      · omega

/-- A concrete store holding the coherent 3-block chain
`0 ↦ hash 100, 1 ↦ hash 101, 2 ↦ hash 102` with best block `2`; used as a
witness input. -/
def chainStoreA : Store where
  headers := fun h =>
    if h = 102 then some { number := 2, parentHash := 101, logBloom := [2] }
    else if h = 101 then some { number := 1, parentHash := 100, logBloom := [1] }
    else if h = 100 then some { number := 0, parentHash := 0, logBloom := [] }
    else none
  blockHashAt := fun n =>
    if n = 2 then some 102 else if n = 1 then some 101
    else if n = 0 then some 100 else none
  blockNumber := fun h =>
    if h = 102 then some 2 else if h = 101 then some 1
    else if h = 100 then some 0 else none
  bestHash := some 102
  blockLogs := fun h =>
    if h = 102 then [{ blockHash := 102, blockNumber := 2, payload := 7 }]
    else if h = 101 then [{ blockHash := 101, blockNumber := 1, payload := 5 }]
    else []
  ethstateAt := fun _ => none
  blockAt := fun _ => none

/-- The number-to-hash indexing of `chainStoreA`. -/
def chainHashA : Nat → Nat := fun n => 100 + n

/-- **C4 witness**: `headers_since(0, 2, 256)` on the concrete 3-block chain. -/
theorem claim_C4_witness :
    ((0 : Nat) ≤ 2 ∧ (1 : Nat) ≤ 256 ∧ (2 : Nat) < U64 ∧ (2 : Nat) - 0 + 1 < U64 ∧
      (256 : Nat) < U64 ∧
      storedChain chainStoreA chainHashA (adjStart 0 2 256) 2 = true ∧ (2 : Nat) < 9) ∧
    ∃ l, headers_since chainStoreA 0 2 256 9 = some l ∧
      List.Pairwise (· < ·) (l.map Header.number) ∧
      l.length ≤ 256 ∧
      (l.map Header.number).getLast? = some 2 ∧
      ∃ hfst, (l.map Header.number).head? = some hfst ∧
        (hfst : Int) = max ((0 : Nat) : Int) (((2 : Nat) : Int) - ((256 : Nat) : Int) + 1) :=
  ⟨⟨by decide, by decide, by decide, by decide, by decide, by decide, by decide⟩,
   claim_C4 chainStoreA chainHashA 0 2 256 9 (by decide) (by decide) (by decide)
     (by decide) (by decide) (by decide) (by decide)⟩

/-! ## Listener notification (client.rs) -/

/-- A registered listener, as observed through the `ChainNotify` trait: the
weak reference is either dead (`alive = false`) or upgradable, and the
listener reports whether it has heads subscribers. -/
structure Listener where
  alive : Bool
  hasHeadsSubscribers : Bool
deriving DecidableEq, Repr

/-- A notification delivered to a listener: a batch of new headers
(`notify_heads`) or a log block-range (`notify_logs`, whose two bounds are
`BlockId::Number` values in the source). -/
inductive Event where
  | heads (hs : List Header)
  | logRange (fromB toB : Nat)
deriving DecidableEq, Repr

/-- The fan-out of `Client::new_blocks` through `Client::notify` (client.rs):
iterate the listener registry (indices from `i`), skip dead references, send
the `headers_since(last+1, current, 256)` batch to listeners with heads
subscribers and a log-range notification to every live listener.  The result
records (listener index, event) pairs in delivery order; `none` models a
`headers_since` panic. -/
def fanout (db : Store) (startB endB fuel : Nat) :
    List Listener → Nat → Option (List (Nat × Event))
  | [], _ => some []
  | l :: rest, i =>
    if l.alive then
      match (if l.hasHeadsSubscribers
             then (headers_since db startB endB 256 fuel).map
               (fun hs => [(i, Event.heads hs)])
             else some []) with
      | none => none
      | some evh =>
        match fanout db startB endB fuel rest (i + 1) with
        | none => none
        | some evs => some (evh ++ (i, Event.logRange startB endB) :: evs)
    else fanout db startB endB fuel rest (i + 1)

/-- `Client::new_blocks` (client.rs): with no snapshot this is a no-op; with
one, if the best block number exceeds the cursor, fan out the notifications
and advance the cursor to the best block number (the new cursor is the first
component of the result).  `none` models a panic during fan-out, before the
cursor update. -/
def new_blocks (db? : Option Store) (cursor : Nat) (ls : List Listener)
    (fuel : Nat) : Option (Nat × List (Nat × Event)) :=
  match db? with
  | none => some (cursor, [])
  | some db =>
    if cursor < db.best_block_number then
      match fanout db (cursor + 1) db.best_block_number fuel ls 0 with
      | none => none
      | some evs => some (db.best_block_number, evs)
    else some (cursor, [])

/-- The head batches delivered to listener `i`. -/
def headsFor (i : Nat) (evs : List (Nat × Event)) : List (List Header) :=
  evs.filterMap fun e =>
    match e with
    | (j, Event.heads hs) => if j = i then some hs else none
    | _ => none

/-- The log ranges delivered to listener `i`. -/
def logRangesFor (i : Nat) (evs : List (Nat × Event)) : List (Nat × Nat) :=
  evs.filterMap fun e =>
    match e with
    | (j, Event.logRange a b) => if j = i then some (a, b) else none
    | _ => none

theorem headsFor_eq_nil (j : Nat) (evs : List (Nat × Event))
    (h : ∀ p ∈ evs, j < p.1) : headsFor j evs = [] := by
  induction evs with
  | nil => rfl
  | cons e rest ih =>
    have he := h e (List.mem_cons_self e rest)
    have hr : ∀ p ∈ rest, j < p.1 := fun p hp => h p (List.mem_cons_of_mem e hp)
    have hne : ¬ e.1 = j := by omega
    unfold headsFor at ih ⊢
    rcases e with ⟨je, ev⟩
    cases ev with
    | heads hs2 =>
      simp only [List.filterMap_cons]
      simp only [hne, if_false]
      exact ih hr
    | logRange a b =>
      simp only [List.filterMap_cons]
      exact ih hr

theorem logRangesFor_eq_nil (j : Nat) (evs : List (Nat × Event))
    (h : ∀ p ∈ evs, j < p.1) : logRangesFor j evs = [] := by
  induction evs with
  | nil => rfl
  | cons e rest ih =>
    have he := h e (List.mem_cons_self e rest)
    have hr : ∀ p ∈ rest, j < p.1 := fun p hp => h p (List.mem_cons_of_mem e hp)
    have hne : ¬ e.1 = j := by omega
    unfold logRangesFor at ih ⊢
    rcases e with ⟨je, ev⟩
    cases ev with
    | heads hs2 =>
      simp only [List.filterMap_cons]
      exact ih hr
    | logRange a b =>
      simp only [List.filterMap_cons]
      simp only [hne, if_false]
      exact ih hr

/-- Fan-out correctness: when `headers_since` succeeds, the fan-out succeeds,
and each listener at offset `i` receives exactly one heads batch if it is
alive with heads subscribers (none otherwise) and exactly one log-range
notification if it is alive (none if dead). -/
theorem fanout_spec (db : Store) (startB endB fuel : Nat) (hs : List Header)
    (hhs : headers_since db startB endB 256 fuel = some hs) :
    ∀ (ls : List Listener) (i0 : Nat),
      ∃ evs, fanout db startB endB fuel ls i0 = some evs ∧
        (∀ p ∈ evs, i0 ≤ p.1) ∧
        (∀ i (hi : i < ls.length),
          headsFor (i0 + i) evs
            = (if (ls.get ⟨i, hi⟩).alive && (ls.get ⟨i, hi⟩).hasHeadsSubscribers
               then [hs] else []) ∧
          logRangesFor (i0 + i) evs
            = (if (ls.get ⟨i, hi⟩).alive then [(startB, endB)] else [])) := by
  intro ls
  induction ls with
  | nil =>
    intro i0
    exact ⟨[], rfl, by simp, fun i hi => absurd hi (by simp)⟩
  | cons l rest ih =>
    intro i0
    obtain ⟨evs1, hf1, hge1, hprops⟩ := ih (i0 + 1)
    have hgt1 : ∀ p ∈ evs1, i0 < p.1 := fun p hp => by
      have := hge1 p hp
      omega
    by_cases hal : l.alive
    · by_cases hhd : l.hasHeadsSubscribers
      · refine ⟨(i0, Event.heads hs) :: (i0, Event.logRange startB endB) :: evs1,
          ?_, ?_, ?_⟩
        · simp [fanout, hal, hhd, hhs, hf1]
        · intro p hp
          rcases List.mem_cons.mp hp with hp | hp
          · simp [hp]
          · rcases List.mem_cons.mp hp with hp2 | hp2
            · simp [hp2]
            · exact Nat.le_of_lt (hgt1 p hp2)
        · intro i hi
          cases i with
          | zero =>
            constructor
            · simp only [Nat.add_zero]
              unfold headsFor
              simp only [List.filterMap_cons, if_pos rfl]
              have h0 : headsFor i0 evs1 = [] := headsFor_eq_nil i0 evs1 hgt1
              unfold headsFor at h0
              simp [h0, hal, hhd, List.get]
            · simp only [Nat.add_zero]
              unfold logRangesFor
              simp only [List.filterMap_cons, if_pos rfl]
              have h0 : logRangesFor i0 evs1 = [] := logRangesFor_eq_nil i0 evs1 hgt1
              unfold logRangesFor at h0
              simp [h0, hal, List.get]
          | succ i2 =>
            have hi2 : i2 < rest.length := by simpa using hi
            have hne : ¬ (i0 = i0 + (i2 + 1)) := by omega
            have hstep := hprops i2 hi2
            have harith : i0 + 1 + i2 = i0 + (i2 + 1) := by omega
            rw [harith] at hstep
            constructor
            · unfold headsFor
              simp only [List.filterMap_cons, hne, if_false]
              have := hstep.1
              unfold headsFor at this
              simpa [List.get] using this
            · unfold logRangesFor
              simp only [List.filterMap_cons, hne, if_false]
              have := hstep.2
              unfold logRangesFor at this
              simpa [List.get] using this
      · refine ⟨(i0, Event.logRange startB endB) :: evs1, ?_, ?_, ?_⟩
        · simp [fanout, hal, hhd, hf1]
        · intro p hp
          rcases List.mem_cons.mp hp with hp | hp
          · simp [hp]
          · exact Nat.le_of_lt (hgt1 p hp)
        · intro i hi
          cases i with
          | zero =>
            constructor
            · simp only [Nat.add_zero]
              unfold headsFor
              simp only [List.filterMap_cons]
              have h0 : headsFor i0 evs1 = [] := headsFor_eq_nil i0 evs1 hgt1
              unfold headsFor at h0
              simp [h0, hal, hhd, List.get]
            · simp only [Nat.add_zero]
              unfold logRangesFor
              simp only [List.filterMap_cons, if_pos rfl]
              have h0 : logRangesFor i0 evs1 = [] := logRangesFor_eq_nil i0 evs1 hgt1
              unfold logRangesFor at h0
              simp [h0, hal, List.get]
          | succ i2 =>
            have hi2 : i2 < rest.length := by simpa using hi
            have hne : ¬ (i0 = i0 + (i2 + 1)) := by omega
            have hstep := hprops i2 hi2
            have harith : i0 + 1 + i2 = i0 + (i2 + 1) := by omega
            rw [harith] at hstep
            constructor
            · unfold headsFor
              simp only [List.filterMap_cons, hne, if_false]
              have := hstep.1
              unfold headsFor at this
              simpa [List.get] using this
            · unfold logRangesFor
              simp only [List.filterMap_cons, hne, if_false]
              have := hstep.2
              unfold logRangesFor at this
              simpa [List.get] using this
    · refine ⟨evs1, ?_, fun p hp => Nat.le_of_lt (hgt1 p hp), ?_⟩
      · simp [fanout, hal, hf1]
      · intro i hi
        cases i with
        | zero =>
          constructor
          · simp only [Nat.add_zero]
            have h0 : headsFor i0 evs1 = [] := headsFor_eq_nil i0 evs1 hgt1
            simp [h0, hal, List.get]
          · simp only [Nat.add_zero]
            have h0 : logRangesFor i0 evs1 = [] := logRangesFor_eq_nil i0 evs1 hgt1
            simp [h0, hal, List.get]
        | succ i2 =>
          have hi2 : i2 < rest.length := by simpa using hi
          have hstep := hprops i2 hi2
          have harith : i0 + 1 + i2 = i0 + (i2 + 1) := by omega
          rw [harith] at hstep
          simpa [List.get] using hstep

/-! ### Claim C3 -/

/-- **C3** (confirmed): `new_blocks()` is a no-op when no snapshot is
obtainable; it is idempotent at an unchanged height (a call at a cursor at or
above the snapshot height delivers nothing and leaves the cursor in place);
after the height goes from `H` to `H + k` (`1 ≤ k ≤ 256`, chain coherently
stored), a single call sets the cursor to `H + k`, delivers exactly one heads
batch — of exactly the `k` headers of blocks `H+1 ... H+k` — to each live
listener with heads subscribers, exactly one log-range notification
`(H+1, H+k)` to every live listener, nothing to dead listeners, and a second
call delivers nothing further. -/
theorem claim_C3 (db : Store) (hsh : Nat → Nat) (H k fuel : Nat)
    (ls : List Listener)
    (hk1 : 1 ≤ k) (hk256 : k ≤ 256)
    (hbest : db.best_block_number = H + k)
    (hU : H + k < U64)
    (hchain : storedChain db hsh (adjStart (H + 1) (H + k) 256) (H + k) = true)
    (hfuel : H + k < fuel) :
    (new_blocks none H ls fuel = some (H, [])) ∧
    (∀ c, db.best_block_number ≤ c → new_blocks (some db) c ls fuel = some (c, [])) ∧
    ∃ hs evs,
      new_blocks (some db) H ls fuel = some (H + k, evs) ∧
      new_blocks (some db) (H + k) ls fuel = some (H + k, []) ∧
      hs.length = k ∧
      hs.map Header.number = List.range' (H + 1) k ∧
      ∀ i (hi : i < ls.length),
        headsFor i evs
          = (if (ls.get ⟨i, hi⟩).alive && (ls.get ⟨i, hi⟩).hasHeadsSubscribers
             then [hs] else []) ∧
        logRangesFor i evs
          = (if (ls.get ⟨i, hi⟩).alive then [(H + 1, H + k)] else []) := by
  have hadj : adjStart (H + 1) (H + k) 256 = H + 1 := by
    rw [adjStart_eq (H + 1) (H + k) 256 (by omega) (by omega) hU (by omega)
      (by norm_num [U64])]
    split <;> omega
  have hsle : adjStart (H + 1) (H + k) 256 ≤ H + k := by omega
  obtain ⟨hs, hhs, hmap⟩ := headers_since_spec db hsh (H + 1) (H + k) 256 fuel hsle
    (storedChain_p _ _ _ _ hchain) (by omega)
  rw [hadj] at hmap
  have harith : H + k - (H + 1) + 1 = k := by omega
  rw [harith] at hmap
  have hlen : hs.length = k := by
    have hc := congrArg List.length hmap
    simpa using hc
  obtain ⟨evs, hf, hge, hprops⟩ := fanout_spec db (H + 1) (H + k) fuel hs hhs ls 0
  refine ⟨rfl, ?_, hs, evs, ?_, ?_, hlen, hmap, ?_⟩
  · intro c hc
    simp only [new_blocks]
    rw [if_neg (by omega)]
  · simp only [new_blocks, hbest, hf]
    rw [if_pos (by omega)]
  · simp only [new_blocks, hbest]
    rw [if_neg (by omega)]
  · intro i hi
    have := hprops i hi
    simpa using this

/-- The listener registry used as a witness input: one live listener with
heads subscribers, one live listener without, one dead listener. -/
def listenersA : List Listener :=
  [{ alive := true, hasHeadsSubscribers := true },
   { alive := true, hasHeadsSubscribers := false },
   { alive := false, hasHeadsSubscribers := true }]

/-- **C3 witness**: the notification tick on the concrete 3-block chain,
advancing the cursor from 0 to 2. -/
theorem claim_C3_witness :
    ((1 : Nat) ≤ 2 ∧ (2 : Nat) ≤ 256 ∧
     chainStoreA.best_block_number = 0 + 2 ∧ 0 + 2 < U64 ∧
     storedChain chainStoreA chainHashA (adjStart (0 + 1) (0 + 2) 256) (0 + 2) = true ∧
     0 + 2 < 9) ∧
    ((new_blocks none 0 listenersA 9 = some (0, [])) ∧
     (∀ c, chainStoreA.best_block_number ≤ c →
        new_blocks (some chainStoreA) c listenersA 9 = some (c, [])) ∧
     ∃ hs evs,
       new_blocks (some chainStoreA) 0 listenersA 9 = some (0 + 2, evs) ∧
       new_blocks (some chainStoreA) (0 + 2) listenersA 9 = some (0 + 2, []) ∧
       hs.length = 2 ∧
       hs.map Header.number = List.range' (0 + 1) 2 ∧
       ∀ i (hi : i < listenersA.length),
         headsFor i evs
           = (if (listenersA.get ⟨i, hi⟩).alive &&
                 (listenersA.get ⟨i, hi⟩).hasHeadsSubscribers
              then [hs] else []) ∧
         logRangesFor i evs
           = (if (listenersA.get ⟨i, hi⟩).alive then [(0 + 1, 0 + 2)] else [])) :=
  ⟨⟨by decide, by decide, by decide, by decide, by decide, by decide⟩,
   claim_C3 chainStoreA chainHashA 0 2 9 listenersA (by decide) (by decide)
     (by decide) (by decide) (by decide) (by decide)⟩

/-! ### Claim C5 -/

/-- The cursor after one `new_blocks` call: the first component of the result,
or the unchanged cursor when the call aborts (a panic happens before the
cursor update in the source). -/
def newBlocksCursor (ls : List Listener) (fuel : Nat) (c : Nat)
    (s : Option Store) : Nat :=
  match new_blocks s c ls fuel with
  | some r => r.1
  | none => c

/-- The cursor after a sequence of `new_blocks` calls, each against the
snapshot obtainable at that moment (`none` when none is), starting from
cursor `c`.  `new_blocks` is the only operation of the client that touches
the cursor. -/
def runNewBlocks (ls : List Listener) (fuel : Nat) (c : Nat)
    (steps : List (Option Store)) : Nat :=
  steps.foldl (newBlocksCursor ls fuel) c

theorem newBlocksCursor_mono (ls : List Listener) (fuel c : Nat)
    (s : Option Store) : c ≤ newBlocksCursor ls fuel c s := by
  cases s with
  | none => simp [newBlocksCursor, new_blocks]
  | some db =>
    simp only [newBlocksCursor, new_blocks]
    by_cases hlt : c < db.best_block_number
    · rw [if_pos hlt]
      cases hfo : fanout db (c + 1) db.best_block_number fuel ls 0 with
      | none => simp
      | some evs => simp; omega
    · rw [if_neg hlt]

theorem newBlocksCursor_le (ls : List Listener) (fuel c B : Nat)
    (s : Option Store) (hc : c ≤ B)
    (hs : ∀ db, s = some db → db.best_block_number ≤ B) :
    newBlocksCursor ls fuel c s ≤ B := by
  cases s with
  | none => simpa [newBlocksCursor, new_blocks] using hc
  | some db =>
    have hb := hs db rfl
    simp only [newBlocksCursor, new_blocks]
    by_cases hlt : c < db.best_block_number
    · rw [if_pos hlt]
      cases hfo : fanout db (c + 1) db.best_block_number fuel ls 0 with
      | none => simpa using hc
      | some evs => simpa using hb
    · rw [if_neg hlt]
      simpa using hc

theorem runNewBlocks_mono (ls : List Listener) (fuel : Nat) :
    ∀ (steps : List (Option Store)) (c : Nat), c ≤ runNewBlocks ls fuel c steps := by
  intro steps
  induction steps with
  | nil => intro c; exact le_rfl
  | cons s rest ih =>
    intro c
    have hstep : runNewBlocks ls fuel c (s :: rest)
        = runNewBlocks ls fuel (newBlocksCursor ls fuel c s) rest := rfl
    rw [hstep]
    exact Nat.le_trans (newBlocksCursor_mono ls fuel c s) (ih _)

theorem runNewBlocks_le (ls : List Listener) (fuel B : Nat) :
    ∀ (steps : List (Option Store)) (c : Nat), c ≤ B →
      (∀ db, some db ∈ steps → db.best_block_number ≤ B) →
      runNewBlocks ls fuel c steps ≤ B := by
  intro steps
  induction steps with
  | nil => intro c hc _; exact hc
  | cons s rest ih =>
    intro c hc hmem
    have h1 : newBlocksCursor ls fuel c s ≤ B :=
      newBlocksCursor_le ls fuel c B s hc
        (fun db hdb => hmem db (by rw [hdb]; exact List.mem_cons_self _ _))
    exact ih _ h1 (fun db hdb => hmem db (List.mem_cons_of_mem _ hdb))

/-- **C5** (confirmed): starting from the initial cursor `0`, across any
sequence of `new_blocks` calls the notification cursor is monotonically
non-decreasing (every prefix's cursor bounds the full run's), and — provided
the obtainable snapshots' heights are non-decreasing along the sequence, the
documented snapshot semantics — at any point where a snapshot is obtainable
the cursor both before and after that call is at most that snapshot's
`best_block_number()`. -/
theorem claim_C5 (ls : List Listener) (fuel : Nat) (steps : List (Option Store))
    (hmono : List.Pairwise (· ≤ ·)
      (steps.filterMap (Option.map Store.best_block_number))) :
    (∀ pre post, steps = pre ++ post →
      runNewBlocks ls fuel 0 pre ≤ runNewBlocks ls fuel 0 steps) ∧
    (∀ pre db post, steps = pre ++ some db :: post →
      runNewBlocks ls fuel 0 pre ≤ db.best_block_number ∧
      runNewBlocks ls fuel 0 (pre ++ [some db]) ≤ db.best_block_number) := by
  constructor
  · intro pre post hsplit
    subst hsplit
    have happ : runNewBlocks ls fuel 0 (pre ++ post)
        = runNewBlocks ls fuel (runNewBlocks ls fuel 0 pre) post :=
      List.foldl_append _ _ _ _
    rw [happ]
    exact runNewBlocks_mono ls fuel post _
  · intro pre db post hsplit
    subst hsplit
    rw [List.filterMap_append] at hmono
    have hcons : List.filterMap (Option.map Store.best_block_number)
        (some db :: post)
        = db.best_block_number :: List.filterMap (Option.map Store.best_block_number) post := by
      simp [List.filterMap_cons]
    rw [hcons] at hmono
    rw [List.pairwise_append] at hmono
    obtain ⟨_, _, hcross⟩ := hmono
    have hpre : ∀ db2 : Store, some db2 ∈ pre →
        db2.best_block_number ≤ db.best_block_number := by
      intro db2 hdb2
      refine hcross db2.best_block_number ?_ db.best_block_number (by simp)
      rw [List.mem_filterMap]
      exact ⟨some db2, hdb2, rfl⟩
    have h1 : runNewBlocks ls fuel 0 pre ≤ db.best_block_number :=
      runNewBlocks_le ls fuel db.best_block_number pre 0 (Nat.zero_le _) hpre
    refine ⟨h1, ?_⟩
    have happ : runNewBlocks ls fuel 0 (pre ++ [some db])
        = runNewBlocks ls fuel (runNewBlocks ls fuel 0 pre) [some db] :=
      List.foldl_append _ _ _ _
    rw [happ]
    exact newBlocksCursor_le ls fuel _ db.best_block_number (some db) h1
      (fun db2 hdb2 => by
        have : db2 = db := by simpa using hdb2.symm
        rw [this])

/-- **C5 witness**: a concrete three-step trace (snapshot, no snapshot,
snapshot) with non-decreasing heights. -/
theorem claim_C5_witness :
    (List.Pairwise (· ≤ ·)
      (([some chainStoreA, none, some chainStoreA] : List (Option Store)).filterMap
        (Option.map Store.best_block_number))) ∧
    ((∀ pre post, ([some chainStoreA, none, some chainStoreA] : List (Option Store))
        = pre ++ post →
      runNewBlocks listenersA 9 0 pre
        ≤ runNewBlocks listenersA 9 0 [some chainStoreA, none, some chainStoreA]) ∧
     (∀ pre db post, ([some chainStoreA, none, some chainStoreA] : List (Option Store))
        = pre ++ some db :: post →
      runNewBlocks listenersA 9 0 pre ≤ db.best_block_number ∧
      runNewBlocks listenersA 9 0 (pre ++ [some db]) ≤ db.best_block_number)) :=
  ⟨by decide,
   claim_C5 listenersA 9 [some chainStoreA, none, some chainStoreA] (by decide)⟩

/-! ## Log search (client.rs) -/

/-- `ethcore::filter::Filter` as consumed by `Client::logs`: the block range,
the precomputed bloom possibilities (the result of the ethcore
`bloom_possibilities()`, one possibility per address/topic combination), the
per-entry match predicate (ethcore `Filter::matches`), and the result limit.
(Named `LogFilter` here only because `Filter` is taken by the ambient
library.) -/
structure LogFilter where
  from_block : BlockId
  to_block : BlockId
  blooms : List (List Nat)
  matchesF : LogEntry → Bool
  limit : Option Nat

/-- Ethcore `Bloom::contains_bloom` on the bit-set model of blooms: every bit
of `other` is set in `big`. -/
def contains_bloom (big other : List Nat) : Bool :=
  other.all fun b => big.contains b

/-- The `bloom_match` closure of `Client::logs` (client.rs): the header's
log bloom contains at least one of the filter's bloom possibilities. -/
def bloom_match (f : LogFilter) (header : Header) : Bool :=
  f.blooms.any fun bloom => contains_bloom header.logBloom bloom

/-- `Client::id_to_block_hash` (client.rs). -/
def id_to_block_hash (db : Store) : BlockId → Option Nat
  | BlockId.hash h => some h
  | BlockId.number n => db.blockHashAt n
  | BlockId.earliest => db.blockHashAt 0
  | BlockId.latest => db.bestHash

/-- The backward parent-hash walk of `Client::logs` (client.rs): starting at
`current`, collect each visited block hash whose header passes `bloom_match`
(in visit order, i.e. descending), stop after visiting a header numbered at
most `from_number`, and also return the last hash visited.  A missing header
aborts the whole query (`?` in the source); the source loop has no
termination guarantee on a corrupt store, so the model takes fuel, with
`none` on exhaustion standing for divergence. -/
def logsWalk (db : Store) (f : LogFilter) (from_number : Nat) :
    Nat → Nat → Option (List Nat × Nat)
  | 0, _ => none
  | fuel + 1, current =>
    match db.headers current with
    | none => none
    | some header =>
      if header.number ≤ from_number then
        some (if bloom_match f header then [current] else [], current)
      else
        match logsWalk db f from_number fuel header.parentHash with
        | none => none
        | some (blocks2, last2) =>
          some ((if bloom_match f header then [current] else []) ++ blocks2, last2)

/-- Per-block log collection (in the given block order), filtered by the
match predicate. -/
def collectLogs (db : Store) (m : LogEntry → Bool) : List Nat → List LogEntry
  | [] => []
  | h :: rest => (db.blockLogs h).filter m ++ collectLogs db m rest

/-- Modelled from the spec: the ethcore `BlockProvider::logs` collaborator
(missing from this repository) — "For each candidate block, fetch and filter
individual log entries against address/topic predicates, honoring the
filter's result-count limit."  Entries of the candidate blocks, in the given
order, filtered by the predicate and capped at `limit`. -/
def db_logs (db : Store) (blocks : List Nat) (m : LogEntry → Bool)
    (limit : Option Nat) : List LogEntry :=
  match limit with
  | none => collectLogs db m blocks
  | some l => (collectLogs db m blocks).take l

/-- The `fetch_logs` closure of `Client::logs` (client.rs): resolve the range
ends, walk back from `to`, reverse the collected blocks to ascending order,
and return `none` (all-or-nothing) unless the walk ended exactly at the
resolved `from` hash and collected at least one block. -/
def fetch_logs (db : Store) (f : LogFilter) (fuel : Nat) : Option (List LogEntry) :=
  match id_to_block_hash db f.from_block with
  | none => none
  | some from_hash =>
    match db.blockNumber from_hash with
    | none => none
    | some from_number =>
      match id_to_block_hash db f.to_block with
      | none => none
      | some to_hash =>
        match logsWalk db f from_number fuel to_hash with
        | none => none
        | some (blocksDesc, last_hash) =>
          if last_hash ≠ from_hash ∨ blocksDesc.reverse = [] then none
          else some (db_logs db blocksDesc.reverse f.matchesF f.limit)

/-- `Client::logs` (client.rs, read_state build): `fetch_logs` with an empty
default, and an empty result when no snapshot is obtainable. -/
def logs (db? : Option Store) (f : LogFilter) (fuel : Nat) : List LogEntry :=
  match db? with
  | none => []
  | some db => (fetch_logs db f fuel).getD []

/-- The block number recorded in the stored header of hash `h` (0 if absent;
only used on hashes whose headers are stored). -/
def headerNum (db : Store) (h : Nat) : Nat :=
  match db.headers h with
  | some hdr => hdr.number
  | none => 0

/-- Decidable check that the backward walk from `current` (with the stopping
rule of `logsWalk`) only ever steps to headers with strictly smaller numbers
— true on any coherently stored chain. -/
def walkDec (db : Store) (from_number : Nat) : Nat → Nat → Bool
  | 0, _ => false
  | fuel + 1, current =>
    match db.headers current with
    | none => false
    | some header =>
      if header.number ≤ from_number then true
      else
        match db.headers header.parentHash with
        | none => false
        | some p =>
          decide (p.number < header.number) &&
            walkDec db from_number fuel header.parentHash

/-- Every block collected by the walk has a stored, bloom-matching header. -/
theorem logsWalk_bloom (db : Store) (f : LogFilter) (from_number : Nat) :
    ∀ fuel current bs last,
      logsWalk db f from_number fuel current = some (bs, last) →
      ∀ h ∈ bs, ∃ hdr, db.headers h = some hdr ∧ bloom_match f hdr = true := by
  intro fuel
  induction fuel with
  | zero =>
    intro current bs last hw
    exact absurd hw (by simp [logsWalk])
  | succ fu ih =>
    intro current bs last hw h hmem
    unfold logsWalk at hw
    cases hh : db.headers current with
    | none => simp [hh] at hw
    | some header =>
      simp only [hh] at hw
      by_cases hstop : header.number ≤ from_number
      · rw [if_pos hstop] at hw
        have hbs : (if bloom_match f header then [current] else []) = bs :=
          congrArg Prod.fst (Option.some.inj hw)
        rw [← hbs] at hmem
        by_cases hb : bloom_match f header
        · rw [if_pos hb] at hmem
          have : h = current := by simpa using hmem
          exact ⟨header, this ▸ hh, hb⟩
        · rw [if_neg hb] at hmem
          exact absurd hmem (by simp)
      · rw [if_neg hstop] at hw
        cases hr : logsWalk db f from_number fu header.parentHash with
        | none => simp [hr] at hw
        | some r =>
          rcases r with ⟨blocks2, last2⟩
          simp only [hr] at hw
          have hbs : (if bloom_match f header then [current] else []) ++ blocks2 = bs :=
            congrArg Prod.fst (Option.some.inj hw)
          rw [← hbs] at hmem
          rcases List.mem_append.mp hmem with hm1 | hm2
          · by_cases hb : bloom_match f header
            · rw [if_pos hb] at hm1
              have : h = current := by simpa using hm1
              exact ⟨header, this ▸ hh, hb⟩
            · rw [if_neg hb] at hm1
              exact absurd hm1 (by simp)
          · exact ih header.parentHash blocks2 last2 hr h hm2

/-- On a walk certified decreasing by `walkDec`, the collected blocks have
strictly decreasing header numbers, all at most the starting header's. -/
theorem logsWalk_desc (db : Store) (f : LogFilter) (from_number : Nat) :
    ∀ fuel current bs last,
      walkDec db from_number fuel current = true →
      logsWalk db f from_number fuel current = some (bs, last) →
      (∀ h ∈ bs, headerNum db h ≤ headerNum db current) ∧
      List.Pairwise (fun a b => headerNum db b < headerNum db a) bs := by
  intro fuel
  induction fuel with
  | zero =>
    intro current bs last hd
    exact absurd hd (by simp [walkDec])
  | succ fu ih =>
    intro current bs last hd hw
    unfold logsWalk at hw
    unfold walkDec at hd
    cases hh : db.headers current with
    | none => simp [hh] at hw
    | some header =>
      simp only [hh] at hw hd
      have hcur : headerNum db current = header.number := by
        simp [headerNum, hh]
      by_cases hstop : header.number ≤ from_number
      · rw [if_pos hstop] at hw
        have hbs : (if bloom_match f header then [current] else []) = bs :=
          congrArg Prod.fst (Option.some.inj hw)
        constructor
        · intro h hmem
          rw [← hbs] at hmem
          by_cases hb : bloom_match f header
          · rw [if_pos hb] at hmem
            have : h = current := by simpa using hmem
            rw [this]
          · rw [if_neg hb] at hmem
            exact absurd hmem (by simp)
        · rw [← hbs]
          by_cases hb : bloom_match f header <;> simp [hb]
      · rw [if_neg hstop] at hw
        rw [if_neg hstop] at hd
        cases hp : db.headers header.parentHash with
        | none => simp [hp] at hd
        | some p =>
          simp only [hp] at hd
          rw [Bool.and_eq_true, decide_eq_true_iff] at hd
          obtain ⟨hplt, hdrec⟩ := hd
          have hpar : headerNum db header.parentHash = p.number := by
            simp [headerNum, hp]
          cases hr : logsWalk db f from_number fu header.parentHash with
          | none => simp [hr] at hw
          | some r =>
            rcases r with ⟨blocks2, last2⟩
            simp only [hr] at hw
            have hbs : (if bloom_match f header then [current] else []) ++ blocks2 = bs :=
              congrArg Prod.fst (Option.some.inj hw)
            obtain ⟨hbd2, hpw2⟩ := ih header.parentHash blocks2 last2 hdrec hr
            have hbd2c : ∀ h ∈ blocks2, headerNum db h < headerNum db current := by
              intro h hmem
              have := hbd2 h hmem
              rw [hpar] at this
              rw [hcur]
              omega
            constructor
            · intro h hmem
              rw [← hbs] at hmem
              rcases List.mem_append.mp hmem with hm1 | hm2
              · by_cases hb : bloom_match f header
                · rw [if_pos hb] at hm1
                  have : h = current := by simpa using hm1
                  rw [this]
                · rw [if_neg hb] at hm1
                  exact absurd hm1 (by simp)
              · exact Nat.le_of_lt (hbd2c h hm2)
            · rw [← hbs]
              rw [List.pairwise_append]
              refine ⟨?_, hpw2, ?_⟩
              · by_cases hb : bloom_match f header <;> simp [hb]
              · intro a ha b hb2
                by_cases hb : bloom_match f header
                · rw [if_pos hb] at ha
                  have : a = current := by simpa using ha
                  rw [this]
                  exact hbd2c b hb2
                · rw [if_neg hb] at ha
                  exact absurd ha (by simp)

/-- Every collected entry comes from one of the candidate blocks and passes
the match predicate. -/
theorem collectLogs_mem (db : Store) (m : LogEntry → Bool) :
    ∀ (blocks : List Nat) (e : LogEntry), e ∈ collectLogs db m blocks →
      ∃ h ∈ blocks, e ∈ db.blockLogs h ∧ m e = true := by
  intro blocks
  induction blocks with
  | nil => intro e he; exact absurd he (by simp [collectLogs])
  | cons h rest ih =>
    intro e he
    unfold collectLogs at he
    rcases List.mem_append.mp he with h1 | h2
    · rw [List.mem_filter] at h1
      exact ⟨h, List.mem_cons_self _ _, h1.1, h1.2⟩
    · obtain ⟨h2b, hmem, hrest⟩ := ih e h2
      exact ⟨h2b, List.mem_cons_of_mem _ hmem, hrest⟩

/-- Collected entries are ascending in block number when the candidate blocks
are ascending and each block's entries carry its header number. -/
theorem collectLogs_sorted (db : Store) (m : LogEntry → Bool) :
    ∀ blocks : List Nat,
      List.Pairwise (fun a b => headerNum db a < headerNum db b) blocks →
      (∀ h ∈ blocks, ∀ e ∈ db.blockLogs h, e.blockNumber = headerNum db h) →
      List.Pairwise (· ≤ ·) ((collectLogs db m blocks).map LogEntry.blockNumber) := by
  intro blocks
  induction blocks with
  | nil => intro _ _; simp [collectLogs]
  | cons h rest ih =>
    intro hpw hloc
    rw [List.pairwise_cons] at hpw
    obtain ⟨hcross, hrest⟩ := hpw
    have htail := ih hrest
      (fun h2 hh2 e he => hloc h2 (List.mem_cons_of_mem _ hh2) e he)
    unfold collectLogs
    rw [List.map_append, List.pairwise_append]
    refine ⟨?_, htail, ?_⟩
    · have hall : ∀ x ∈ ((db.blockLogs h).filter m).map LogEntry.blockNumber,
          x = headerNum db h := by
        intro x hx
        rw [List.mem_map] at hx
        obtain ⟨e, he, hex⟩ := hx
        rw [List.mem_filter] at he
        rw [← hex]
        exact hloc h (List.mem_cons_self _ _) e he.1
      refine List.pairwise_of_forall_mem_list ?_
      intro a ha b hb
      rw [hall a ha, hall b hb]
    · intro a ha b hb
      rw [List.mem_map] at ha hb
      obtain ⟨ea, hea, hexa⟩ := ha
      obtain ⟨eb, heb, hexb⟩ := hb
      rw [List.mem_filter] at hea
      have hva : ea.blockNumber = headerNum db h :=
        hloc h (List.mem_cons_self _ _) ea hea.1
      obtain ⟨hb2, hmemb, heb2, _⟩ := collectLogs_mem db m rest eb heb
      have hvb : eb.blockNumber = headerNum db hb2 :=
        hloc hb2 (List.mem_cons_of_mem _ hmemb) eb heb2
      have hlt := hcross hb2 hmemb
      rw [← hexa, ← hexb, hva, hvb]
      exact Nat.le_of_lt hlt

/-! ### Claim C2 -/

/-- **C2** (confirmed): given resolved range ends and a completed walk, (a) if
the walk's last visited hash differs from the resolved `from` hash (fork,
reorganization, incomplete database), `logs` returns the empty sequence —
never a partial result; (b) every returned entry passes the filter predicate
and comes from a collected block whose stored header log-bloom matches one of
the filter's bloom possibilities; (c) the result length is capped at the
filter's limit; (d) on a chain whose walk is strictly descending (any
coherently stored chain), with entries carrying their block's header number,
the result is in ascending block order. -/
theorem claim_C2 (db : Store) (f : LogFilter) (fuel : Nat)
    (from_hash from_number to_hash last : Nat) (bsDesc : List Nat)
    (h1 : id_to_block_hash db f.from_block = some from_hash)
    (h2 : db.blockNumber from_hash = some from_number)
    (h3 : id_to_block_hash db f.to_block = some to_hash)
    (h4 : logsWalk db f from_number fuel to_hash = some (bsDesc, last)) :
    (last ≠ from_hash → logs (some db) f fuel = []) ∧
    (∀ e ∈ logs (some db) f fuel, f.matchesF e = true ∧
      ∃ h hdr, h ∈ bsDesc ∧ db.headers h = some hdr ∧ bloom_match f hdr = true ∧
        e ∈ db.blockLogs h) ∧
    (∀ l, f.limit = some l → (logs (some db) f fuel).length ≤ l) ∧
    (walkDec db from_number fuel to_hash = true →
      (∀ h ∈ bsDesc, ∀ e ∈ db.blockLogs h, e.blockNumber = headerNum db h) →
      List.Pairwise (· ≤ ·) ((logs (some db) f fuel).map LogEntry.blockNumber)) := by
  have hlogs : logs (some db) f fuel = (fetch_logs db f fuel).getD [] := rfl
  have hfe : fetch_logs db f fuel
      = if last ≠ from_hash ∨ bsDesc.reverse = [] then none
        else some (db_logs db bsDesc.reverse f.matchesF f.limit) := by
    unfold fetch_logs
    simp only [h1, h2, h3, h4]
  by_cases hcond : last ≠ from_hash ∨ bsDesc.reverse = []
  · have hempty : logs (some db) f fuel = [] := by
      rw [hlogs, hfe, if_pos hcond]
      rfl
    refine ⟨fun _ => hempty, ?_, ?_, ?_⟩
    · intro e he
      rw [hempty] at he
      exact absurd he (by simp)
    · intro l _
      rw [hempty]
      simp
    · intro _ _
      rw [hempty]
      simp
  · have hsome : logs (some db) f fuel
        = db_logs db bsDesc.reverse f.matchesF f.limit := by
      rw [hlogs, hfe, if_neg hcond]
      rfl
    push_neg at hcond
    refine ⟨?_, ?_, ?_, ?_⟩
    · intro hne
      exact absurd hcond.1 hne
    · intro e he
      rw [hsome] at he
      have hec : e ∈ collectLogs db f.matchesF bsDesc.reverse := by
        unfold db_logs at he
        cases hl : f.limit with
        | none => rw [hl] at he; exact he
        | some l => rw [hl] at he; exact List.mem_of_mem_take he
      obtain ⟨h, hmem, hel, hm⟩ := collectLogs_mem db f.matchesF bsDesc.reverse e hec
      have hmem2 : h ∈ bsDesc := List.mem_reverse.mp hmem
      obtain ⟨hdr, hhdr, hbm⟩ :=
        logsWalk_bloom db f from_number fuel to_hash bsDesc last h4 h hmem2
      exact ⟨hm, h, hdr, hmem2, hhdr, hbm, hel⟩
    · intro l hl
      rw [hsome]
      unfold db_logs
      rw [hl]
      exact List.length_take_le _ _
    · intro hwd hloc
      rw [hsome]
      have hdesc := logsWalk_desc db f from_number fuel to_hash bsDesc last hwd h4
      have hasc : List.Pairwise (fun a b => headerNum db a < headerNum db b)
          bsDesc.reverse := by
        rw [List.pairwise_reverse]
        exact hdesc.2
      have hloc2 : ∀ h ∈ bsDesc.reverse, ∀ e ∈ db.blockLogs h,
          e.blockNumber = headerNum db h :=
        fun h hm e he => hloc h (List.mem_reverse.mp hm) e he
      have hsorted := collectLogs_sorted db f.matchesF bsDesc.reverse hasc hloc2
      unfold db_logs
      cases hl : f.limit with
      | none => exact hsorted
      | some l =>
        have hsub : List.Sublist
            (((collectLogs db f.matchesF bsDesc.reverse).take l).map
              LogEntry.blockNumber)
            ((collectLogs db f.matchesF bsDesc.reverse).map LogEntry.blockNumber) :=
          List.Sublist.map _ (List.take_sublist _ _)
        exact List.Pairwise.sublist hsub hsorted

/-- A concrete log filter over `chainStoreA`: blocks 1 to 2, one bloom
possibility `{1}` (matching only block 1's header), no entry predicate
restriction, limit 10. -/
def filterA : LogFilter where
  from_block := BlockId.number 1
  to_block := BlockId.number 2
  blooms := [[1]]
  matchesF := fun _ => true
  limit := some 10

/-- **C2 witness**: the concrete filter on the concrete chain; the walk
collects exactly block 1 (hash 101) and ends at the `from` hash. -/
theorem claim_C2_witness :
    (id_to_block_hash chainStoreA filterA.from_block = some 101 ∧
     chainStoreA.blockNumber 101 = some 1 ∧
     id_to_block_hash chainStoreA filterA.to_block = some 102 ∧
     logsWalk chainStoreA filterA 1 9 102 = some ([101], 101)) ∧
    ((101 ≠ 101 → logs (some chainStoreA) filterA 9 = []) ∧
     (∀ e ∈ logs (some chainStoreA) filterA 9, filterA.matchesF e = true ∧
       ∃ h hdr, h ∈ [101] ∧ chainStoreA.headers h = some hdr ∧
         bloom_match filterA hdr = true ∧ e ∈ chainStoreA.blockLogs h) ∧
     (∀ l, filterA.limit = some l → (logs (some chainStoreA) filterA 9).length ≤ l) ∧
     (walkDec chainStoreA 1 9 102 = true →
       (∀ h ∈ [101], ∀ e ∈ chainStoreA.blockLogs h,
         e.blockNumber = headerNum chainStoreA h) →
       List.Pairwise (· ≤ ·)
         ((logs (some chainStoreA) filterA 9).map LogEntry.blockNumber))) :=
  ⟨⟨by decide, by decide, by decide, by decide⟩,
   claim_C2 chainStoreA filterA 9 101 1 102 101 [101]
     (by decide) (by decide) (by decide) (by decide)⟩
